import Mathlib

/-!
Verification development for the soranks repository (Stack Overflow ranking
tool).  The definitions below are a shallow embedding of the Go source in
src/main.go and src/unnamed/part_000: pure data is modelled with Lean
structures, Go `int` is modelled by `Int` (no overflow is relevant at these
magnitudes), pointer-threaded state (the accepted counter and the result
list) is passed and returned explicitly, and console logging is modelled as
an explicit list of log events so that logging-only behaviour can be
distinguished from result-relevant behaviour.
-/

/-- One upstream user record, restricted to the fields that the rank filter
`GetUserInfo` actually reads (src/main.go lines 160-196): Reputation,
Location, AccountID, DisplayName, WebsiteURL, Link, ProfileImage.  The
remaining fields of the Go `SOUsers.Items` element (badge counts, dates,
quota data, ...) are never consulted by any code the claims mention. -/
structure User where
  accountID : Int
  displayName : String
  reputation : Int
  location : String
  websiteURL : String
  link : String
  profileImage : String
deriving Repr, DecidableEq

/-- A rank entry, the Go struct `SOUserRank` (src/main.go lines 62-71). -/
structure SOUserRank where
  rank : Int
  accountID : Int
  displayName : String
  reputation : Int
  location : String
  websiteURL : String
  link : String
  profileImage : String
deriving Repr, DecidableEq

/-- Console output produced by `GetUserInfo` when the `term` flag is set:
the header block printed at the first accepted record (src/main.go lines
168-171) and one row per accepted record (lines 184-187).  The row carries
the values the Go code passes to the printf call (the Go code additionally
pipes the two strings through html.UnescapeString purely for display). -/
inductive LogEvent where
  | header : LogEvent
  | row (rank : Int) (name : String) (rep : Int) (loc : String) : LogEvent
deriving Repr, DecidableEq

/-- The observable outcome of one `GetUserInfo` call: the returned boolean
(`true` = continue with the next page), the final value of the shared
accepted counter, the final contents of the shared result list, and the
console log produced. -/
structure FilterResult where
  cont : Bool
  counter : Int
  ranks : List SOUserRank
  log : List LogEvent
deriving Repr, DecidableEq

/-- The rank entry `GetUserInfo` builds for an accepted user at counter
value `c` (src/main.go lines 173-180). -/
def mkEntry (c : Int) (u : User) : SOUserRank :=
  ⟨c, u.accountID, u.displayName, u.reputation,
   u.location, u.websiteURL, u.link, u.profileImage⟩

/-- The console output `GetUserInfo` produces while accepting a user whose
acceptance brought the counter to `c1`: the header is printed just before
the first accepted row (src/main.go lines 168-171, guard
`*counter == 1 && term`), then the row itself (lines 184-187, guard
`term`). -/
def logStep (term : Bool) (c1 : Int) (u : User) (lg : List LogEvent) : List LogEvent :=
  let lg1 := if c1 = 1 ∧ term = true then lg ++ [LogEvent.header] else lg
  if term = true then
    lg1 ++ [LogEvent.row c1 u.displayName u.reputation u.location]
  else lg1

/-- The rank filter `GetUserInfo` (src/main.go lines 160-196).  The Go
function takes the minimum reputation from the package constant
`MinReputation` in src/main.go and as an explicit argument in the
`lib.GetUserInfo` call of src/unnamed/part_000 line 107; we take it as the
argument `minRep`.  The location regular expression is abstracted as the
boolean matcher `loc` (Go: `location.MatchString`).  `counter` and `ranks`
are the dereferenced values of the shared pointers, returned updated. -/
def GetUserInfo (minRep : Int) (loc : String → Bool) (limit : Int) (term : Bool) :
    List User → Int → List SOUserRank → List LogEvent → FilterResult
  | [], counter, ranks, lg => ⟨true, counter, ranks, lg⟩
  | u :: rest, counter, ranks, lg =>
    if u.reputation < minRep then
      ⟨false, counter, ranks, lg⟩
    else if loc u.location then
      if limit ≤ counter + 1 ∧ limit ≠ 0 then
        ⟨false, counter + 1, ranks ++ [mkEntry (counter + 1) u],
         logStep term (counter + 1) u lg⟩
      else
        GetUserInfo minRep loc limit term rest (counter + 1)
          (ranks ++ [mkEntry (counter + 1) u]) (logStep term (counter + 1) u lg)
    else
      GetUserInfo minRep loc limit term rest counter ranks lg

theorem getUserInfo_nil (minRep : Int) (loc : String → Bool) (limit : Int) (term : Bool)
    (c : Int) (r : List SOUserRank) (lg : List LogEvent) :
    GetUserInfo minRep loc limit term [] c r lg = ⟨true, c, r, lg⟩ := rfl

/-- Structural description of one `GetUserInfo` call: the result list is the
input list extended by a block `t` of new entries, the counter advances by
exactly the number of new entries, and the `i`-th new entry carries rank
`c + i + 1`.  This single lemma powers the append-only and rank-numbering
claims. -/
theorem getUserInfo_ranks_spec (minRep : Int) (loc : String → Bool) (limit : Int)
    (term : Bool) :
    ∀ (items : List User) (c : Int) (r : List SOUserRank) (lg : List LogEvent),
      ∃ t : List SOUserRank,
        (GetUserInfo minRep loc limit term items c r lg).ranks = r ++ t ∧
        (GetUserInfo minRep loc limit term items c r lg).counter = c + t.length ∧
        ∀ i (h : i < t.length), (t.get ⟨i, h⟩).rank = c + i + 1 := by
  intro items
  induction items with
  | nil =>
    intro c r lg
    exact ⟨[], by simp [GetUserInfo]⟩
  | cons u rest ih =>
    intro c r lg
    by_cases hrep : u.reputation < minRep
    · refine ⟨[], ?_⟩
      simp [GetUserInfo, hrep]
    · by_cases hloc : loc u.location = true
      · by_cases hlim : limit ≤ c + 1 ∧ limit ≠ 0
        · refine ⟨[mkEntry (c + 1) u], ?_, ?_, ?_⟩
          · simp [GetUserInfo, if_neg hrep, hloc, hlim]
          · simp [GetUserInfo, if_neg hrep, hloc, hlim]
          · intro i h
            have hi : i = 0 := by simpa using Nat.lt_one_iff.mp (by simpa using h)
            subst hi
            simp [mkEntry]
        · obtain ⟨t, ht1, ht2, ht3⟩ :=
            ih (c + 1) (r ++ [mkEntry (c + 1) u]) (logStep term (c + 1) u lg)
          refine ⟨mkEntry (c + 1) u :: t, ?_, ?_, ?_⟩
          · simp only [GetUserInfo, if_neg hrep, hloc, if_true, if_neg hlim]
            rw [ht1]
            simp
          · simp only [GetUserInfo, if_neg hrep, hloc, if_true, if_neg hlim]
            rw [ht2]
            simp only [List.length_cons]
            push_cast
            ring
          · intro i h
            match i with
            | 0 => simp [mkEntry]
            | Nat.succ j =>
              have hj : j < t.length := by simpa using h
              have := ht3 j hj
              simp only [List.get_cons_succ]
              rw [this]
              push_cast
              ring
      · obtain ⟨t, ht1, ht2, ht3⟩ := ih c r lg
        refine ⟨t, ?_, ?_, ?_⟩
        · simpa only [GetUserInfo, if_neg hrep, hloc, if_false, Bool.false_eq_true] using ht1
        · simpa only [GetUserInfo, if_neg hrep, hloc, if_false, Bool.false_eq_true] using ht2
        · exact ht3

/-- Records at or above the threshold that are filtered only by location
never flip the continue flag to `false` unless the limit fires; dually, the
filter stops cold at the first under-threshold record.  This lemma states
the stop behaviour: for a page `pre ++ u :: post` where every record of
`pre` is at or above `minRep` and `u` is below it, the call returns exactly
the state reached after scanning `pre`, with the continue flag forced to
`false`, independently of `post`. -/
theorem getUserInfo_early_exit (minRep : Int) (loc : String → Bool) (limit : Int)
    (term : Bool) :
    ∀ (pre : List User) (u : User) (post : List User) (c : Int)
      (r : List SOUserRank) (lg : List LogEvent),
      (∀ v ∈ pre, minRep ≤ v.reputation) → u.reputation < minRep →
      GetUserInfo minRep loc limit term (pre ++ u :: post) c r lg =
        ⟨false, (GetUserInfo minRep loc limit term pre c r lg).counter,
         (GetUserInfo minRep loc limit term pre c r lg).ranks,
         (GetUserInfo minRep loc limit term pre c r lg).log⟩ := by
  intro pre
  induction pre with
  | nil =>
    intro u post c r lg _ hu
    simp [GetUserInfo, hu]
  | cons v rest ih =>
    intro u post c r lg hpre hu
    have hv : minRep ≤ v.reputation := hpre v (by simp)
    have hvlt : ¬v.reputation < minRep := not_lt.mpr hv
    have hrest : ∀ w ∈ rest, minRep ≤ w.reputation := fun w hw => hpre w (by simp [hw])
    by_cases hloc : loc v.location = true
    · by_cases hlim : limit ≤ c + 1 ∧ limit ≠ 0
      · simp [GetUserInfo, hvlt, hloc, hlim]
      · simp only [List.cons_append, GetUserInfo, if_neg hvlt, hloc, if_true, if_neg hlim]
        exact ih u post (c + 1) (r ++ [mkEntry (c + 1) v]) (logStep term (c + 1) v lg)
          hrest hu
    · simp only [List.cons_append, GetUserInfo, if_neg hvlt, hloc, if_false,
        Bool.false_eq_true]
      exact ih u post c r lg hrest hu

/-- Concrete user records for the spec scenarios. -/
def u900 : User := ⟨11, "alice", 900, "Spain", "https://a.example", "https://so/a", "img-a"⟩

def u700 : User := ⟨22, "bob", 700, "France", "https://b.example", "https://so/b", "img-b"⟩

def u300 : User := ⟨33, "carol", 300, "Italy", "https://c.example", "https://so/c", "img-c"⟩

/-- C1: for every page whose records up to the first under-threshold record
are at or above the minimum reputation (in particular every page sorted in
non-increasing reputation order), `GetUserInfo` visits no record after the
first whose reputation is below `minRep`: the call returns `false` (do not
continue) and its counter, result list and log are exactly those reached
after scanning the records before that first under-threshold record — in
particular nothing is appended at that record or for any later record, and
the later records `post` do not influence the outcome at all. -/
theorem rankFilter_stops_at_first_below_min (minRep : Int) (loc : String → Bool)
    (limit : Int) (term : Bool) (pre : List User) (u : User) (post : List User)
    (c : Int) (r : List SOUserRank) (lg : List LogEvent)
    (hpre : ∀ v ∈ pre, minRep ≤ v.reputation) (hu : u.reputation < minRep) :
    (GetUserInfo minRep loc limit term (pre ++ u :: post) c r lg).cont = false ∧
    GetUserInfo minRep loc limit term (pre ++ u :: post) c r lg =
      ⟨false, (GetUserInfo minRep loc limit term pre c r lg).counter,
       (GetUserInfo minRep loc limit term pre c r lg).ranks,
       (GetUserInfo minRep loc limit term pre c r lg).log⟩ := by
  have h := getUserInfo_early_exit minRep loc limit term pre u post c r lg hpre hu
  exact ⟨by rw [h], h⟩

/-- C1 witness: the spec scenario.  Page with reputations `[900, 700, 300]`,
`minReputation = 500`, a location pattern matching everything, counter 0,
default limit 20: the filter accepts exactly the first two records (ranks 1
and 2) and returns `false` at the third. -/
theorem rankFilter_stops_at_first_below_min_witness :
    GetUserInfo 500 (fun _ => true) 20 false ([u900, u700] ++ [u300]) 0 [] [] =
      ⟨false, 2, [mkEntry 1 u900, mkEntry 2 u700], []⟩ := by
  have h := rankFilter_stops_at_first_below_min 500 (fun _ => true) 20 false
    [u900, u700] u300 [] 0 [] [] (by decide) (by decide)
  rw [h.2]
  rfl

/-- The result-list invariant of the spec's data model: the counter equals
the number of entries, and the entry at position `i` (0-based) carries rank
`i + 1`, i.e. the rank values are 1, 2, 3, ... in insertion order with no
gaps. -/
def RanksInv (c : Int) (r : List SOUserRank) : Prop :=
  c = r.length ∧ ∀ i (h : i < r.length), (r.get ⟨i, h⟩).rank = i + 1

/-- C2: every `GetUserInfo` call preserves the result-list invariant — after
the call the rank values still form the strictly increasing gap-free
sequence 1, 2, ..., each equal to the number of entries accepted at the
moment it was appended — and the result list is append-only: the previous
entries survive unchanged as the initial segment of the new list.  Because
the same counter and list (shared via pointers in the Go code) are passed
to the call for the next page, the invariant carries across successive
pages. -/
theorem rankFilter_rank_invariant (minRep : Int) (loc : String → Bool) (limit : Int)
    (term : Bool) (items : List User) (c : Int) (r : List SOUserRank)
    (lg : List LogEvent) (hinv : RanksInv c r) :
    RanksInv (GetUserInfo minRep loc limit term items c r lg).counter
        (GetUserInfo minRep loc limit term items c r lg).ranks ∧
      ∃ tnew, (GetUserInfo minRep loc limit term items c r lg).ranks = r ++ tnew := by
  obtain ⟨t, ht1, ht2, ht3⟩ := getUserInfo_ranks_spec minRep loc limit term items c r lg
  obtain ⟨hc, hr⟩ := hinv
  refine ⟨⟨?_, ?_⟩, t, ht1⟩
  · rw [ht2, ht1, hc]
    simp
  · intro i h
    have h2 : i < (r ++ t).length := by rw [← ht1]; exact h
    have hg : (GetUserInfo minRep loc limit term items c r lg).ranks.get ⟨i, h⟩ =
        (r ++ t).get ⟨i, h2⟩ := by
      apply List.get_of_eq ht1
    rw [hg]
    rcases lt_or_ge i r.length with hil | hir
    · have : (r ++ t).get ⟨i, h2⟩ = r.get ⟨i, hil⟩ := by
        simp only [List.get_eq_getElem]
        exact List.getElem_append_left hil
      rw [this]
      exact hr i hil
    · have hit : i - r.length < t.length := by
        simp only [List.length_append] at h2
        omega
      have : (r ++ t).get ⟨i, h2⟩ = t.get ⟨i - r.length, hit⟩ := by
        simp only [List.get_eq_getElem]
        exact List.getElem_append_right hir
      rw [this, ht3 (i - r.length) hit, hc]
      have : (i : Int) - (r.length : Int) = ((i - r.length : Nat) : Int) := by
        omega
      omega

/-- C2 witness: starting from the empty result list and counter 0 (which
satisfy the invariant), the scenario page preserves the invariant and
extends the list. -/
theorem rankFilter_rank_invariant_witness :
    RanksInv (GetUserInfo 500 (fun _ => true) 20 false [u900, u700, u300] 0 [] []).counter
        (GetUserInfo 500 (fun _ => true) 20 false [u900, u700, u300] 0 [] []).ranks ∧
      ∃ tnew,
        (GetUserInfo 500 (fun _ => true) 20 false [u900, u700, u300] 0 [] []).ranks =
          [] ++ tnew :=
  rankFilter_rank_invariant 500 (fun _ => true) 20 false [u900, u700, u300] 0 [] []
    ⟨by simp, by intro i h; simp at h⟩

/-- The continue flag, counter and result list computed by `GetUserInfo`
depend neither on the `term` flag nor on the log already accumulated: those
two inputs influence only the log component of the result. -/
theorem getUserInfo_result_log_free (minRep : Int) (loc : String → Bool) (limit : Int) :
    ∀ (items : List User) (c : Int) (r : List SOUserRank)
      (t t' : Bool) (lg lg' : List LogEvent),
      (GetUserInfo minRep loc limit t items c r lg).cont =
          (GetUserInfo minRep loc limit t' items c r lg').cont ∧
        (GetUserInfo minRep loc limit t items c r lg).counter =
          (GetUserInfo minRep loc limit t' items c r lg').counter ∧
        (GetUserInfo minRep loc limit t items c r lg).ranks =
          (GetUserInfo minRep loc limit t' items c r lg').ranks := by
  intro items
  induction items with
  | nil => intro c r t t' lg lg'; simp [GetUserInfo]
  | cons u rest ih =>
    intro c r t t' lg lg'
    by_cases hrep : u.reputation < minRep
    · simp [GetUserInfo, hrep]
    · by_cases hloc : loc u.location = true
      · by_cases hlim : limit ≤ c + 1 ∧ limit ≠ 0
        · simp [GetUserInfo, hrep, hloc, hlim]
        · simp only [GetUserInfo, if_neg hrep, hloc, if_true, if_neg hlim]
          exact ih (c + 1) (r ++ [mkEntry (c + 1) u]) t t'
            (logStep t (c + 1) u lg) (logStep t' (c + 1) u lg')
      · simp only [GetUserInfo, if_neg hrep, hloc, if_false, Bool.false_eq_true]
        exact ih c r t t' lg lg'

/-- C9: calling the rank filter with the `term` flag `true` and with it
`false` — all other inputs equal — returns the same continue/stop signal,
leaves the same final counter value and produces the same result list; the
`term` flag influences console logging only. -/
theorem rankFilter_term_flag_only_affects_log (minRep : Int) (loc : String → Bool)
    (limit : Int) (items : List User) (c : Int) (r : List SOUserRank)
    (lg : List LogEvent) :
    (GetUserInfo minRep loc limit true items c r lg).cont =
        (GetUserInfo minRep loc limit false items c r lg).cont ∧
      (GetUserInfo minRep loc limit true items c r lg).counter =
        (GetUserInfo minRep loc limit false items c r lg).counter ∧
      (GetUserInfo minRep loc limit true items c r lg).ranks =
        (GetUserInfo minRep loc limit false items c r lg).ranks :=
  getUserInfo_result_log_free minRep loc limit items c r true false lg lg

/-- The location matcher obtained from the default value of the `location`
flag.  src/main.go line 80 declares the flag with default value `"."`, and
line 289 compiles `fmt.Sprintf("(?i)%s", *location)`, i.e. the RE2 pattern
`(?i).`.  In RE2, `.` matches any single character except newline, the
`(?i)` case flag is irrelevant for it, and `MatchString` is an unanchored
search, so the compiled default pattern matches a string exactly when the
string contains at least one character other than a newline. -/
def defaultLocationMatch (s : String) : Bool :=
  s.data.any fun ch => ch != '\n'

/-- The user record of a person with high reputation and an empty location
string (the JSON field is tagged `omitempty`, so users without a location
decode to the empty string). -/
def uNoLoc : User := ⟨44, "dave", 600, "", "", "https://so/d", "img-d"⟩

/-- C7 counterexample: the default location pattern does not match the
empty string, so a record with reputation far above the minimum but an
empty location is NOT accepted: the filter leaves the counter at 0 and the
result list empty.  This falsifies the claim that under the default flag
value every record's location matches and in particular that a record with
an empty location string is accepted. -/
theorem defaultLocation_rejects_empty_location :
    defaultLocationMatch "" = false ∧
      GetUserInfo 400 defaultLocationMatch 20 false [uNoLoc] 0 [] [] =
        ⟨true, 0, [], []⟩ := by
  constructor
  · rfl
  · rfl

/-- C7 (amended): the default location pattern matches exactly the strings
containing at least one non-newline character — so location filtering under
the default flag accepts every record whose location has such a character
(subject to the reputation threshold), but rejects records whose location
is empty (or consists only of newlines). -/
theorem defaultLocation_match_characterization :
    (∀ s : String, defaultLocationMatch s = true ↔ ∃ ch ∈ s.data, ch ≠ '\n') ∧
      (∀ (minRep limitv : Int) (t : Bool) (u : User) (c : Int)
          (r : List SOUserRank) (lg : List LogEvent),
        minRep ≤ u.reputation → defaultLocationMatch u.location = true →
        ¬(limitv ≤ c + 1 ∧ limitv ≠ 0) →
        GetUserInfo minRep defaultLocationMatch limitv t [u] c r lg =
          ⟨true, c + 1, r ++ [mkEntry (c + 1) u], logStep t (c + 1) u lg⟩) := by
  constructor
  · intro s
    simp [defaultLocationMatch, List.any_eq_true]
  · intro minRep limitv t u c r lg hrep hloc hlim
    simp [GetUserInfo, not_lt.mpr hrep, hloc, hlim]

/-- C7 amended witness: a record with reputation 900 and location "Spain"
is matched by the default pattern and accepted at counter 5, limit 20. -/
theorem defaultLocation_match_characterization_witness :
    GetUserInfo 400 defaultLocationMatch 20 false [u900] 5 [] [] =
      ⟨true, 6, [mkEntry 6 u900], logStep false 6 u900 []⟩ :=
  defaultLocation_match_characterization.2 400 20 false u900 5 [] []
    (by decide) (by decide) (by decide)

/-- A JSON field value appearing in a serialized rank entry: each field of
the Go struct `SOUserRank` is either a string or an integer. -/
inductive JValue where
  | str (s : String) : JValue
  | num (n : Int) : JValue
deriving Repr, DecidableEq

/-- Serialization of one rank entry as performed by `json.MarshalIndent` in
`DumpJson` (src/main.go lines 198-214), modelled at the JSON-value level
(one key/value pair per emitted field, in struct order).  Per the struct
tags of `SOUserRank` (src/main.go lines 62-71), `location` and
`website_url` carry `omitempty` and are omitted exactly when the string is
empty; the remaining six fields are always emitted. -/
def dumpJsonEntry (e : SOUserRank) : List (String × JValue) :=
  [("rank", JValue.num e.rank), ("account_id", JValue.num e.accountID),
   ("display_name", JValue.str e.displayName), ("reputation", JValue.num e.reputation)]
  ++ (if e.location = "" then [] else [("location", JValue.str e.location)])
  ++ (if e.websiteURL = "" then [] else [("website_url", JValue.str e.websiteURL)])
  ++ [("link", JValue.str e.link), ("profile_image", JValue.str e.profileImage)]

/-- The JSON Writer `DumpJson` modelled at the JSON-value level: the Go
function marshals the `Ranks` slice into a JSON array with one object per
entry and writes it out; the document content is the list of serialized
objects. -/
def DumpJson (ranks : List SOUserRank) : List (List (String × JValue)) :=
  ranks.map dumpJsonEntry

/-- String-field extraction as performed by `encoding/json` unmarshalling
into `SOUserRank`: a missing (omitted) key yields the zero value "". -/
def jsonStr (fields : List (String × JValue)) (k : String) : String :=
  match fields.lookup k with
  | some (JValue.str s) => s
  | _ => ""

/-- Integer-field extraction as performed by `encoding/json` unmarshalling
into `SOUserRank`: a missing key yields the zero value 0. -/
def jsonNum (fields : List (String × JValue)) (k : String) : Int :=
  match fields.lookup k with
  | some (JValue.num n) => n
  | _ => 0

/-- Parsing one serialized rank entry back into the `SOUserRank` type, as
`encoding/json` does using the struct tags. -/
def parseJsonEntry (fields : List (String × JValue)) : SOUserRank :=
  ⟨jsonNum fields "rank", jsonNum fields "account_id", jsonStr fields "display_name",
   jsonNum fields "reputation", jsonStr fields "location", jsonStr fields "website_url",
   jsonStr fields "link", jsonStr fields "profile_image"⟩

/-- Parsing a whole serialized result list. -/
def parseJson (doc : List (List (String × JValue))) : List SOUserRank :=
  doc.map parseJsonEntry

theorem parseJsonEntry_dumpJsonEntry (e : SOUserRank) :
    parseJsonEntry (dumpJsonEntry e) = e := by
  obtain ⟨rk, aid, dn, rp, l, w, lk, pim⟩ := e
  by_cases hl : l = "" <;> by_cases hw : w = "" <;>
    simp [dumpJsonEntry, parseJsonEntry, jsonStr, jsonNum, List.lookup, hl, hw]

/-- C8: serializing any result list to JSON as the JSON Writer does and
parsing the JSON back into the rank-entry type yields the same sequence of
entries with identical values in every field, including entries whose
optional location or website fields are empty (they are omitted on output
and restored as the zero value "" on input). -/
theorem dumpJson_roundTrip (ranks : List SOUserRank) :
    parseJson (DumpJson ranks) = ranks := by
  unfold parseJson DumpJson
  rw [List.map_map]
  have : parseJsonEntry ∘ dumpJsonEntry = id := by
    funext e
    exact parseJsonEntry_dumpJsonEntry e
  rw [this, List.map_id]

/-- The retry ceiling `MaxErrors` (src/main.go line 21 and
src/unnamed/part_000 line 14; the constant is 3 in both files). -/
def MaxErrors : Nat := 3

/-- The result of one fetch attempt as the driver loop observes it:
either the stream call failed (`StreamHTTP` returned an error), or it
delivered a decoded page with its item list and `has_more` flag.  The Go
driver treats an errored fetch and a zero-item page identically
(src/main.go line 311: `err != nil || len(users.Items) == 0`), and the
model keeps the two cases separate so that that equivalence is provable
rather than assumed. -/
inductive Fetch where
  | fail : Fetch
  | page (items : List User) (hasMore : Bool) : Fetch
deriving Repr, DecidableEq

/-- The mutable state of the driver loop in `main` (src/main.go lines
291-298): the transient-error counter, the page cursor and the last
requested page, the shared accepted counter and result list, and the
file-mode stop flag.  `keyDerivations` counts how many times `GetKey` has
been invoked (src/main.go lines 302-306), so that key-derivation behaviour
is observable in the model. -/
structure DriverState where
  streamErrors : Nat
  currentPage : Int
  lastPage : Int
  counter : Int
  ranks : List SOUserRank
  stop : Bool
  keyDerivations : Nat
deriving Repr, DecidableEq

/-- The key-refresh step at the top of each loop iteration in HTTP mode
(src/main.go lines 302-306): `GetKey` is invoked exactly when
`lastPage == currentPage`. -/
def keyStep (s : DriverState) : DriverState :=
  if s.lastPage = s.currentPage then
    { s with keyDerivations := s.keyDerivations + 1 }
  else s

/-- How a run of the driver loop ends: `exit5` models `os.Exit(5)` on retry
exhaustion (src/main.go lines 315-318), `finished` models falling out of
the loop via `break`, and `outOfInput` marks that the (finite) list of
modelled fetch results was exhausted while the real loop would have kept
fetching — no claim is settled on an `outOfInput` run. -/
inductive Outcome where
  | exit5 (s : DriverState) : Outcome
  | finished (s : DriverState) : Outcome
  | outOfInput (s : DriverState) : Outcome
deriving Repr, DecidableEq

/-- The driver state carried by an outcome. -/
def Outcome.state : Outcome → DriverState
  | .exit5 s => s
  | .finished s => s
  | .outOfInput s => s

/-- The HTTP-mode driver loop of `main` (src/main.go lines 300-342),
parametrised by the configuration (minimum reputation, location matcher,
limit, maximum page count, term flag) and consuming one `Fetch` result per
iteration.  A failed fetch or a zero-item page increments `streamErrors`
and, below the ceiling, retries without advancing the page cursor
(`continue`); a non-empty page is handed to `GetUserInfo`, after which the
loop either breaks on the filter's stop signal or advances the page cursor
and re-checks the break conditions `(currentPage >= MaxPages && MaxPages
!= 0) || !users.HasMore || stop` (line 339). -/
def runHTTP (minRep : Int) (loc : String → Bool) (limitv : Int) (maxPages : Int)
    (term : Bool) : List Fetch → DriverState → Outcome
  | [], s => .outOfInput s
  | Fetch.fail :: rest, s =>
    let s1 := keyStep s
    let s2 := { s1 with streamErrors := s1.streamErrors + 1 }
    if MaxErrors ≤ s2.streamErrors then .exit5 s2
    else runHTTP minRep loc limitv maxPages term rest s2
  | Fetch.page items hasMore :: rest, s =>
    let s1 := keyStep s
    if items.length = 0 then
      let s2 := { s1 with streamErrors := s1.streamErrors + 1 }
      if MaxErrors ≤ s2.streamErrors then .exit5 s2
      else runHTTP minRep loc limitv maxPages term rest s2
    else
      let res := GetUserInfo minRep loc limitv term items s1.counter s1.ranks []
      let s2 := { s1 with counter := res.counter, ranks := res.ranks }
      if res.cont = false then .finished s2
      else
        let s3 := { s2 with lastPage := s2.currentPage,
                            currentPage := s2.currentPage + 1 }
        if (maxPages ≤ s3.currentPage ∧ maxPages ≠ 0) ∨ hasMore = false ∨
            s3.stop = true then .finished s3
        else runHTTP minRep loc limitv maxPages term rest s3

/-- The driver state on entry to the loop (src/main.go lines 291-295):
no stream errors, page cursor 1 with `lastPage` initialised to the cursor,
counter 0, empty result list, stop flag unset, no key derived yet. -/
def initState : DriverState :=
  ⟨0, 1, 1, 0, [], false, 0⟩

/-- An output file written after the loop (src/main.go lines 349-355). -/
inductive OutputFile where
  | markdown (ranks : List SOUserRank) : OutputFile
  | json (ranks : List SOUserRank) : OutputFile
deriving Repr, DecidableEq

/-- The post-loop behaviour of `main` (src/main.go lines 344-357): a run
killed by `os.Exit(5)` writes nothing; a finished run with counter 0 exits
0 writing nothing; otherwise the Markdown and/or JSON files requested by
the `mdrsp` and `jsonrsp` flags are written from the accumulated result
list. -/
def finishRun (mdrsp jsonrsp : Bool) : Outcome → List OutputFile
  | .exit5 _ => []
  | .outOfInput _ => []
  | .finished s =>
    if s.counter = 0 then []
    else
      (if mdrsp then [OutputFile.markdown s.ranks] else []) ++
        (if jsonrsp then [OutputFile.json s.ranks] else [])

/-- `keyStep` touches only the key-derivation count. -/
theorem keyStep_fields (s : DriverState) :
    (keyStep s).streamErrors = s.streamErrors ∧ (keyStep s).currentPage = s.currentPage ∧
      (keyStep s).lastPage = s.lastPage ∧ (keyStep s).counter = s.counter ∧
      (keyStep s).ranks = s.ranks ∧ (keyStep s).stop = s.stop := by
  unfold keyStep
  by_cases h : s.lastPage = s.currentPage <;> simp [h]

/-- Unfolding of a failed-fetch iteration. -/
theorem runHTTP_fail_step (minRep : Int) (loc : String → Bool) (limitv maxPages : Int)
    (term : Bool) (rest : List Fetch) (s : DriverState) :
    runHTTP minRep loc limitv maxPages term (Fetch.fail :: rest) s =
      if MaxErrors ≤ s.streamErrors + 1 then
        Outcome.exit5 { keyStep s with streamErrors := s.streamErrors + 1 }
      else
        runHTTP minRep loc limitv maxPages term rest
          { keyStep s with streamErrors := s.streamErrors + 1 } := by
  obtain ⟨h1, -, -, -, -, -⟩ := keyStep_fields s
  by_cases h : MaxErrors ≤ s.streamErrors + 1 <;>
    simp [runHTTP, h1, h]

/-- Unfolding of a zero-item-page iteration: identical to a failed fetch
(src/main.go line 311 treats `err != nil` and `len(users.Items) == 0`
alike). -/
theorem runHTTP_emptyPage_step (minRep : Int) (loc : String → Bool)
    (limitv maxPages : Int) (term : Bool) (hm : Bool) (rest : List Fetch)
    (s : DriverState) :
    runHTTP minRep loc limitv maxPages term (Fetch.page [] hm :: rest) s =
      if MaxErrors ≤ s.streamErrors + 1 then
        Outcome.exit5 { keyStep s with streamErrors := s.streamErrors + 1 }
      else
        runHTTP minRep loc limitv maxPages term rest
          { keyStep s with streamErrors := s.streamErrors + 1 } := by
  obtain ⟨h1, -, -, -, -, -⟩ := keyStep_fields s
  by_cases h : MaxErrors ≤ s.streamErrors + 1 <;>
    simp [runHTTP, h1, h]

/-- C4: in HTTP mode, whenever a fetch returns an error or a page with zero
items, the driver increments the retry counter, and: if the counter has
thereby reached the ceiling of 3, the run terminates with exit code 5 and
no output file is ever written; otherwise the loop retries — the run
continues with the remaining fetch results from a state whose page cursor
and last-page marker are unchanged, so the same page number is requested
again. -/
theorem driver_retries_failed_fetch (minRep : Int) (loc : String → Bool)
    (limitv maxPages : Int) (term : Bool) (mdrsp jsonrsp : Bool)
    (rest : List Fetch) (s : DriverState) (ev : Fetch) (hm : Bool)
    (hev : ev = Fetch.fail ∨ ev = Fetch.page [] hm) :
    (MaxErrors ≤ s.streamErrors + 1 →
      runHTTP minRep loc limitv maxPages term (ev :: rest) s =
          Outcome.exit5 { keyStep s with streamErrors := s.streamErrors + 1 } ∧
        finishRun mdrsp jsonrsp
          (runHTTP minRep loc limitv maxPages term (ev :: rest) s) = []) ∧
    (s.streamErrors + 1 < MaxErrors →
      runHTTP minRep loc limitv maxPages term (ev :: rest) s =
          runHTTP minRep loc limitv maxPages term rest
            { keyStep s with streamErrors := s.streamErrors + 1 } ∧
        ({ keyStep s with streamErrors := s.streamErrors + 1 } :
            DriverState).currentPage = s.currentPage ∧
        ({ keyStep s with streamErrors := s.streamErrors + 1 } :
            DriverState).lastPage = s.lastPage) := by
  obtain ⟨-, h2, h3, -, -, -⟩ := keyStep_fields s
  have hstep : runHTTP minRep loc limitv maxPages term (ev :: rest) s =
      if MaxErrors ≤ s.streamErrors + 1 then
        Outcome.exit5 { keyStep s with streamErrors := s.streamErrors + 1 }
      else
        runHTTP minRep loc limitv maxPages term rest
          { keyStep s with streamErrors := s.streamErrors + 1 } := by
    rcases hev with hev | hev <;> subst hev
    · exact runHTTP_fail_step minRep loc limitv maxPages term rest s
    · exact runHTTP_emptyPage_step minRep loc limitv maxPages term hm rest s
  constructor
  · intro hmax
    rw [hstep, if_pos hmax]
    exact ⟨rfl, rfl⟩
  · intro hlt
    rw [hstep, if_neg (by omega)]
    exact ⟨rfl, by simp [h2], by simp [h3]⟩

/-- C4 witness: from a state that has already seen two failures, a third
failed fetch terminates the run with exit code 5 and no output files. -/
theorem driver_retries_failed_fetch_witness :
    runHTTP 400 defaultLocationMatch 20 1 false [Fetch.fail]
          ⟨2, 1, 1, 0, [], false, 1⟩ =
        Outcome.exit5 ⟨3, 1, 1, 0, [], false, 2⟩ ∧
      finishRun true true
        (runHTTP 400 defaultLocationMatch 20 1 false [Fetch.fail]
          ⟨2, 1, 1, 0, [], false, 1⟩) = [] := by
  have h := (driver_retries_failed_fetch 400 defaultLocationMatch 20 1 false true true
    [] ⟨2, 1, 1, 0, [], false, 1⟩ Fetch.fail false (Or.inl rfl)).1 (by decide)
  exact ⟨by rw [h.1]; rfl, h.2⟩

/-- The driver state after an iteration that processed a non-empty page and
stopped on the filter's signal (`break` at src/main.go lines 333-335): the
counter and result list are updated, the page cursor is not advanced. -/
def pageFilterState (minRep : Int) (loc : String → Bool) (limitv : Int) (term : Bool)
    (items : List User) (s : DriverState) : DriverState :=
  let s1 := keyStep s
  let res := GetUserInfo minRep loc limitv term items s1.counter s1.ranks []
  { s1 with counter := res.counter, ranks := res.ranks }

/-- The driver state after an iteration that processed a non-empty page and
continued: counter and result list updated, `lastPage` set to the current
page and the page cursor advanced by one (src/main.go lines 337-338). -/
def pageStepState (minRep : Int) (loc : String → Bool) (limitv : Int) (term : Bool)
    (items : List User) (s : DriverState) : DriverState :=
  let s1 := keyStep s
  let res := GetUserInfo minRep loc limitv term items s1.counter s1.ranks []
  { s1 with counter := res.counter, ranks := res.ranks,
            lastPage := s1.currentPage, currentPage := s1.currentPage + 1 }

/-- Unfolding of an iteration that processes a non-empty page on which the
rank filter signals stop. -/
theorem runHTTP_page_stop_step (minRep : Int) (loc : String → Bool)
    (limitv maxPages : Int) (term : Bool) (items : List User) (hm : Bool)
    (rest : List Fetch) (s : DriverState) (hne : items ≠ [])
    (hcont : (GetUserInfo minRep loc limitv term items (keyStep s).counter
        (keyStep s).ranks []).cont = false) :
    runHTTP minRep loc limitv maxPages term (Fetch.page items hm :: rest) s =
      Outcome.finished (pageFilterState minRep loc limitv term items s) := by
  obtain ⟨u, us, rfl⟩ := List.exists_cons_of_ne_nil hne
  simp [runHTTP, hcont, pageFilterState]

/-- Unfolding of an iteration that processes a non-empty page on which the
rank filter signals continue: the driver advances the page cursor and
breaks exactly when the incremented cursor reaches a non-zero `maxPages`,
the page's has-more flag is false, or the stop flag is set (src/main.go
line 339). -/
theorem runHTTP_page_step (minRep : Int) (loc : String → Bool)
    (limitv maxPages : Int) (term : Bool) (items : List User) (hm : Bool)
    (rest : List Fetch) (s : DriverState) (hne : items ≠ [])
    (hcont : (GetUserInfo minRep loc limitv term items (keyStep s).counter
        (keyStep s).ranks []).cont = true) :
    runHTTP minRep loc limitv maxPages term (Fetch.page items hm :: rest) s =
      if (maxPages ≤ s.currentPage + 1 ∧ maxPages ≠ 0) ∨ hm = false ∨ s.stop = true then
        Outcome.finished (pageStepState minRep loc limitv term items s)
      else
        runHTTP minRep loc limitv maxPages term rest
          (pageStepState minRep loc limitv term items s) := by
  obtain ⟨u, us, rfl⟩ := List.exists_cons_of_ne_nil hne
  obtain ⟨hse, hcur, hlast, hcnt, hrk, hstp⟩ := keyStep_fields s
  simp only [runHTTP, List.length_cons, Nat.succ_ne_zero, if_false, hcont,
    Bool.true_eq_false, pageStepState, hcur, hstp]

/-- Once some page has been processed successfully, `lastPage` stays one
behind `currentPage` and the key-refresh guard `lastPage == currentPage`
never fires again: the key-derivation count is frozen for the rest of the
run. -/
theorem runHTTP_keyCount_stable (minRep : Int) (loc : String → Bool)
    (limitv maxPages : Int) (term : Bool) :
    ∀ (events : List Fetch) (s : DriverState), s.currentPage = s.lastPage + 1 →
      ((runHTTP minRep loc limitv maxPages term events s).state).keyDerivations =
        s.keyDerivations := by
  intro events
  induction events with
  | nil => intro s _; rfl
  | cons ev rest ih =>
    intro s h
    have hne : ¬s.lastPage = s.currentPage := by omega
    have hks : keyStep s = s := by simp [keyStep, hne]
    match ev with
    | Fetch.fail =>
      rw [runHTTP_fail_step, hks]
      by_cases hmax : MaxErrors ≤ s.streamErrors + 1
      · rw [if_pos hmax]; rfl
      · rw [if_neg hmax]
        exact ih { s with streamErrors := s.streamErrors + 1 } (by simpa using h)
    | Fetch.page [] hm =>
      rw [runHTTP_emptyPage_step, hks]
      by_cases hmax : MaxErrors ≤ s.streamErrors + 1
      · rw [if_pos hmax]; rfl
      · rw [if_neg hmax]
        exact ih { s with streamErrors := s.streamErrors + 1 } (by simpa using h)
    | Fetch.page (u :: us) hm =>
      by_cases hcont : (GetUserInfo minRep loc limitv term (u :: us) (keyStep s).counter
          (keyStep s).ranks []).cont = true
      · rw [runHTTP_page_step minRep loc limitv maxPages term (u :: us) hm rest s
          (by simp) hcont]
        by_cases hbrk : (maxPages ≤ s.currentPage + 1 ∧ maxPages ≠ 0) ∨ hm = false ∨
            s.stop = true
        · rw [if_pos hbrk]
          simp [Outcome.state, pageStepState, hks]
        · rw [if_neg hbrk]
          have := ih (pageStepState minRep loc limitv term (u :: us) s)
            (by simp [pageStepState])
          rw [this]
          simp [pageStepState, hks]
      · rw [runHTTP_page_stop_step minRep loc limitv maxPages term (u :: us) hm rest s
          (by simp) (by simpa using hcont)]
        simp [Outcome.state, pageFilterState, hks]

/-- C6 counterexample: a run whose first fetch fails and whose second fetch
(a retry of page 1) succeeds derives the API key twice — once before the
first fetch and once more before the retry, because the guard
`lastPage == currentPage` still holds on a retry of the first page.  This
falsifies the claim that the key is derived exactly once per run and never
re-derived on a retry. -/
theorem driver_key_rederived_on_retry :
    runHTTP 500 (fun _ => true) 20 0 false
        [Fetch.fail, Fetch.page [u900] false] initState =
      Outcome.finished ⟨1, 2, 1, 1, [mkEntry 1 u900], false, 2⟩ ∧
    ((runHTTP 500 (fun _ => true) 20 0 false
        [Fetch.fail, Fetch.page [u900] false] initState).state).keyDerivations = 2 := by
  exact ⟨rfl, rfl⟩

/-- Key-derivation count of an iteration that processes a non-empty page,
whatever the filter outcome: the page itself adds the derivations performed
at its own iteration start, and nothing after a processed page can add
more. -/
theorem runHTTP_page_keyCount (minRep : Int) (loc : String → Bool)
    (limitv maxPages : Int) (term : Bool) (items : List User) (hm : Bool)
    (rest : List Fetch) (s : DriverState) (hne : items ≠ []) :
    ((runHTTP minRep loc limitv maxPages term (Fetch.page items hm :: rest) s).state).keyDerivations =
      (keyStep s).keyDerivations := by
  by_cases hcont : (GetUserInfo minRep loc limitv term items (keyStep s).counter
      (keyStep s).ranks []).cont = true
  · rw [runHTTP_page_step minRep loc limitv maxPages term items hm rest s hne hcont]
    by_cases hbrk : (maxPages ≤ s.currentPage + 1 ∧ maxPages ≠ 0) ∨ hm = false ∨
        s.stop = true
    · rw [if_pos hbrk]
      simp [Outcome.state, pageStepState]
    · rw [if_neg hbrk]
      have := runHTTP_keyCount_stable minRep loc limitv maxPages term rest
        (pageStepState minRep loc limitv term items s) (by simp [pageStepState])
      rw [this]
      simp [pageStepState]
  · rw [runHTTP_page_stop_step minRep loc limitv maxPages term items hm rest s hne
      (by simpa using hcont)]
    simp [Outcome.state, pageFilterState]

/-- C6 (amended): in HTTP mode the key is derived at the start of every
iteration in which `lastPage` equals `currentPage`, i.e. once before the
first fetch attempt and once more before each retry of the first page;
after the first successfully processed page `currentPage` stays one ahead
of `lastPage` for the rest of the run and the key is never re-derived —
neither on a page advance nor on a retry of a later page.  Concretely, a
run whose first page succeeds after `k ≤ 2` failed attempts derives the key
exactly `k + 1` times in total. -/
theorem driver_key_derivation_count (minRep : Int) (loc : String → Bool)
    (limitv maxPages : Int) (term : Bool) (k : Nat) (items : List User) (hm : Bool)
    (rest : List Fetch) (hk : k ≤ 2) (hne : items ≠ []) :
    ((runHTTP minRep loc limitv maxPages term
        (List.replicate k Fetch.fail ++ Fetch.page items hm :: rest)
        initState).state).keyDerivations = k + 1 ∧
    (∀ (events : List Fetch) (s : DriverState), s.currentPage = s.lastPage + 1 →
      ((runHTTP minRep loc limitv maxPages term events s).state).keyDerivations =
        s.keyDerivations) := by
  refine ⟨?_, runHTTP_keyCount_stable minRep loc limitv maxPages term⟩
  interval_cases k
  · rw [List.replicate, List.nil_append,
      runHTTP_page_keyCount minRep loc limitv maxPages term items hm rest initState hne]
    rfl
  · have h1 : List.replicate 1 Fetch.fail ++ Fetch.page items hm :: rest =
        Fetch.fail :: (Fetch.page items hm :: rest) := rfl
    rw [h1, runHTTP_fail_step]
    rw [if_neg (by simp [initState, MaxErrors])]
    have : ({ keyStep initState with streamErrors := initState.streamErrors + 1 } :
        DriverState) = ⟨1, 1, 1, 0, [], false, 1⟩ := by rfl
    rw [this, runHTTP_page_keyCount minRep loc limitv maxPages term items hm rest
      ⟨1, 1, 1, 0, [], false, 1⟩ hne]
    rfl
  · have h1 : List.replicate 2 Fetch.fail ++ Fetch.page items hm :: rest =
        Fetch.fail :: (Fetch.fail :: (Fetch.page items hm :: rest)) := rfl
    rw [h1, runHTTP_fail_step]
    rw [if_neg (by simp [initState, MaxErrors])]
    have e1 : ({ keyStep initState with streamErrors := initState.streamErrors + 1 } :
        DriverState) = ⟨1, 1, 1, 0, [], false, 1⟩ := by rfl
    rw [e1, runHTTP_fail_step]
    rw [if_neg (by norm_num [MaxErrors])]
    have e2 : ({ keyStep ⟨1, 1, 1, 0, [], false, 1⟩ with
        streamErrors := (⟨1, 1, 1, 0, [], false, 1⟩ : DriverState).streamErrors + 1 } :
        DriverState) = ⟨2, 1, 1, 0, [], false, 2⟩ := by rfl
    rw [e2, runHTTP_page_keyCount minRep loc limitv maxPages term items hm rest
      ⟨2, 1, 1, 0, [], false, 2⟩ hne]
    rfl

/-- C6 amended witness: one failed attempt of page 1 followed by a
successful page means the key is derived exactly twice. -/
theorem driver_key_derivation_count_witness :
    ((runHTTP 500 (fun _ => true) 20 0 false
        (List.replicate 1 Fetch.fail ++ Fetch.page [u900] true :: [])
        initState).state).keyDerivations = 1 + 1 ∧
    (∀ (events : List Fetch) (s : DriverState), s.currentPage = s.lastPage + 1 →
      ((runHTTP 500 (fun _ => true) 20 0 false events s).state).keyDerivations =
        s.keyDerivations) :=
  driver_key_derivation_count 500 (fun _ => true) 20 0 false 1 [u900] true []
    (by decide) (by simp)

/-- With `limit = 0` (unlimited) the filter never stops on the limit check
(`limit != 0` fails), so over a page whose records are all at or above the
threshold it signals continue. -/
theorem getUserInfo_cont_of_limit_zero (minRep : Int) (loc : String → Bool)
    (term : Bool) :
    ∀ (items : List User) (c : Int) (r : List SOUserRank) (lg : List LogEvent),
      (∀ u ∈ items, minRep ≤ u.reputation) →
      (GetUserInfo minRep loc 0 term items c r lg).cont = true := by
  intro items
  induction items with
  | nil => intro c r lg _; rfl
  | cons u rest ih =>
    intro c r lg hall
    have hrep : ¬u.reputation < minRep := not_lt.mpr (hall u (by simp))
    have hrest : ∀ v ∈ rest, minRep ≤ v.reputation := fun v hv => hall v (by simp [hv])
    by_cases hloc : loc u.location = true
    · have hlim : ¬((0 : Int) ≤ c + 1 ∧ (0 : Int) ≠ 0) := by simp
      simp only [GetUserInfo, if_neg hrep, hloc, if_true, if_neg hlim]
      exact ih (c + 1) (r ++ [mkEntry (c + 1) u]) (logStep term (c + 1) u lg) hrest
    · simp only [GetUserInfo, if_neg hrep, hloc, if_false, Bool.false_eq_true]
      exact ih c r lg hrest

/-- C5 counterexample: with `MaxPages = 2` (non-zero), `limit = 0` and a
supply of two non-empty all-qualifying pages whose has-more flag is true,
the driver processes only page 1: after that page the cursor becomes 2,
the break condition `currentPage >= MaxPages && MaxPages != 0` fires, and
the run finishes with `lastPage = 1` and a single result entry — the second
page (page number `MaxPages`) is never processed, contradicting the claim
that pages up to and including `MaxPages` are processed before stopping on
the page-count condition. -/
theorem driver_stops_before_page_maxPages :
    runHTTP 500 (fun _ => true) 0 2 false
        [Fetch.page [u900] true, Fetch.page [u700] true] initState =
      Outcome.finished ⟨0, 2, 1, 1, [mkEntry 1 u900], false, 1⟩ ∧
    ((runHTTP 500 (fun _ => true) 0 2 false
        [Fetch.page [u900] true, Fetch.page [u700] true] initState).state).lastPage = 1 ∧
    ((runHTTP 500 (fun _ => true) 0 2 false
        [Fetch.page [u900] true, Fetch.page [u700] true]
        initState).state).ranks.length = 1 := by
  exact ⟨rfl, rfl, rfl⟩

/-- From any state with the stop flag unset, a page cursor strictly below a
positive `maxPages`, and enough all-qualifying non-empty pages available,
the driver advances the cursor one page at a time and finishes on the
page-count break with `lastPage = maxPages - 1` and the cursor at
`maxPages`. -/
theorem runHTTP_maxPages_stop (minRep : Int) (loc : String → Bool) (term : Bool)
    (maxPages : Int) (items : List User) (hne : items ≠ [])
    (hrep : ∀ u ∈ items, minRep ≤ u.reputation) (hpos : 0 < maxPages) :
    ∀ (n : Nat) (s : DriverState), s.stop = false → s.currentPage < maxPages →
      maxPages ≤ s.currentPage + n →
      ∃ sf, runHTTP minRep loc 0 maxPages term
          (List.replicate n (Fetch.page items true)) s = Outcome.finished sf ∧
        sf.lastPage = maxPages - 1 ∧ sf.currentPage = maxPages := by
  intro n
  induction n with
  | zero =>
    intro s _ hlt hle
    simp only [Nat.cast_zero, add_zero] at hle
    omega
  | succ m ih =>
    intro s hstop hlt hle
    obtain ⟨hse, hcur, hlast, hcnt, hrk, hstp⟩ := keyStep_fields s
    have hcont : (GetUserInfo minRep loc 0 term items (keyStep s).counter
        (keyStep s).ranks []).cont = true :=
      getUserInfo_cont_of_limit_zero minRep loc term items (keyStep s).counter
        (keyStep s).ranks [] hrep
    have hrepl : List.replicate (m + 1) (Fetch.page items true) =
        Fetch.page items true :: List.replicate m (Fetch.page items true) := rfl
    rw [hrepl, runHTTP_page_step minRep loc 0 maxPages term items true
      (List.replicate m (Fetch.page items true)) s hne hcont]
    by_cases hbrk : maxPages ≤ s.currentPage + 1
    · rw [if_pos (by exact Or.inl ⟨hbrk, by omega⟩)]
      refine ⟨pageStepState minRep loc 0 term items s, rfl, ?_, ?_⟩
      · simp only [pageStepState]
        simp [hcur]
        omega
      · simp only [pageStepState]
        simp [hcur]
        omega
    · rw [if_neg (by
        push_neg
        refine ⟨fun h => absurd h hbrk, by simp, by simp [pageStepState, hstp, hstop]⟩)]
      have hinv1 : (pageStepState minRep loc 0 term items s).stop = false := by
        simp [pageStepState, hstp, hstop]
      have hinv2 : (pageStepState minRep loc 0 term items s).currentPage < maxPages := by
        simp [pageStepState, hcur]
        omega
      have hinv3 : maxPages ≤ (pageStepState minRep loc 0 term items s).currentPage + m := by
        simp [pageStepState, hcur]
        push_cast at hle ⊢
        omega
      exact ih (pageStepState minRep loc 0 term items s) hinv1 hinv2 hinv3

/-- C5 (amended): after processing a page the driver sets `lastPage` to the
current page, increments the cursor, and breaks exactly when the
incremented cursor reaches a non-zero `MaxPages`, the fetched page's
has-more flag is false, or the file-mode stop flag is set.  Pages are
fetched in consecutive order starting at 1, but on the page-count condition
the driver stops after processing page `MaxPages - 1` (for `MaxPages >= 2`):
page `MaxPages` itself is never processed, because the comparison
`currentPage >= MaxPages` is made after the increment. -/
theorem driver_maxPages_amended (minRep : Int) (loc : String → Bool) (term : Bool)
    (maxPages : Int) (n : Nat) (items : List User) (hne : items ≠ [])
    (hrep : ∀ u ∈ items, minRep ≤ u.reputation) (hM : 2 ≤ maxPages)
    (hn : maxPages ≤ 1 + n) :
    (∃ sf, runHTTP minRep loc 0 maxPages term
        (List.replicate n (Fetch.page items true)) initState = Outcome.finished sf ∧
      sf.lastPage = maxPages - 1 ∧ sf.currentPage = maxPages) ∧
    (∀ (limitv maxP : Int) (items2 : List User) (hm : Bool) (rest : List Fetch)
        (s : DriverState), items2 ≠ [] →
      (GetUserInfo minRep loc limitv term items2 (keyStep s).counter
          (keyStep s).ranks []).cont = true →
      runHTTP minRep loc limitv maxP term (Fetch.page items2 hm :: rest) s =
        if (maxP ≤ s.currentPage + 1 ∧ maxP ≠ 0) ∨ hm = false ∨ s.stop = true then
          Outcome.finished (pageStepState minRep loc limitv term items2 s)
        else
          runHTTP minRep loc limitv maxP term rest
            (pageStepState minRep loc limitv term items2 s)) := by
  constructor
  · exact runHTTP_maxPages_stop minRep loc term maxPages items hne hrep (by omega)
      n initState rfl (by simp [initState]; omega) (by simp [initState]; omega)
  · intro limitv maxP items2 hm rest s hne2 hcont2
    exact runHTTP_page_step minRep loc limitv maxP term items2 hm rest s hne2 hcont2

/-- C5 amended witness: with `MaxPages = 3` and two all-qualifying pages
available, the run finishes with `lastPage = 2` and cursor 3. -/
theorem driver_maxPages_amended_witness :
    (∃ sf, runHTTP 500 (fun _ => true) 0 3 false
        (List.replicate 2 (Fetch.page [u900] true)) initState = Outcome.finished sf ∧
      sf.lastPage = 3 - 1 ∧ sf.currentPage = 3) ∧
    (∀ (limitv maxP : Int) (items2 : List User) (hm : Bool) (rest : List Fetch)
        (s : DriverState), items2 ≠ [] →
      (GetUserInfo 500 (fun _ => true) limitv false items2 (keyStep s).counter
          (keyStep s).ranks []).cont = true →
      runHTTP 500 (fun _ => true) limitv maxP false (Fetch.page items2 hm :: rest) s =
        if (maxP ≤ s.currentPage + 1 ∧ maxP ≠ 0) ∨ hm = false ∨ s.stop = true then
          Outcome.finished (pageStepState 500 (fun _ => true) limitv false items2 s)
        else
          runHTTP 500 (fun _ => true) limitv maxP false rest
            (pageStepState 500 (fun _ => true) limitv false items2 s)) :=
  driver_maxPages_amended 500 (fun _ => true) false 3 2 [u900] (by simp)
    (by intro u hu; simp at hu; subst hu; decide) (by norm_num) (by norm_num)

/-- A fetch result on which the driver neither retries nor breaks when run
with `limit = 0` and `maxPages = 0`: a non-empty page, has-more set, and
every record at or above the reputation threshold. -/
def GoodEv (minRep : Int) : Fetch → Prop
  | Fetch.fail => False
  | Fetch.page items hm => items ≠ [] ∧ hm = true ∧ ∀ u ∈ items, minRep ≤ u.reputation

/-- Processing a block of good fetch results (with `limit = 0`,
`maxPages = 0`) neither stops the run nor touches the transient-error
counter or the stop flag. -/
theorem runHTTP_good_block (minRep : Int) (loc : String → Bool) (term : Bool) :
    ∀ (gs rest : List Fetch) (s : DriverState),
      (∀ ev ∈ gs, GoodEv minRep ev) → s.stop = false →
      ∃ s2, runHTTP minRep loc 0 0 term (gs ++ rest) s =
          runHTTP minRep loc 0 0 term rest s2 ∧
        s2.streamErrors = s.streamErrors ∧ s2.stop = false := by
  intro gs
  induction gs with
  | nil => intro rest s _ hstop; exact ⟨s, rfl, rfl, hstop⟩
  | cons ev gs2 ih =>
    intro rest s hgood hstop
    obtain ⟨hse, hcur, hlast, hcnt, hrk, hstp⟩ := keyStep_fields s
    have hev := hgood ev (by simp)
    match ev with
    | Fetch.fail => exact absurd hev id
    | Fetch.page items hm =>
      obtain ⟨hne, hhm, hrep⟩ := hev
      subst hhm
      have hcont : (GetUserInfo minRep loc 0 term items (keyStep s).counter
          (keyStep s).ranks []).cont = true :=
        getUserInfo_cont_of_limit_zero minRep loc term items (keyStep s).counter
          (keyStep s).ranks [] hrep
      have hstep := runHTTP_page_step minRep loc 0 0 term items true
        (gs2 ++ rest) s hne hcont
      rw [List.cons_append, hstep, if_neg (by simp [hstop])]
      obtain ⟨s2, heq, herr, hstop2⟩ := ih rest (pageStepState minRep loc 0 term items s)
        (fun e he => hgood e (by simp [he])) (by simp [pageStepState, hstp, hstop])
      refine ⟨s2, heq, ?_, hstop2⟩
      rw [herr]
      simp [pageStepState, hse]

/-- C10: the transient-error counter is global to the run and is never
reset by a successful fetch: with `limit = 0` and `maxPages = 0`, a run
whose fetch results are three failures separated by arbitrary blocks of
successfully processed pages terminates with exit code 5, its error counter
having accumulated to 3 across the whole run — at most two transient fetch
failures are tolerated per run in total, not per page. -/
theorem driver_error_counter_global (minRep : Int) (loc : String → Bool) (term : Bool)
    (g1 g2 g3 : List Fetch) (rest : List Fetch)
    (h1 : ∀ ev ∈ g1, GoodEv minRep ev) (h2 : ∀ ev ∈ g2, GoodEv minRep ev)
    (h3 : ∀ ev ∈ g3, GoodEv minRep ev) :
    ∃ sf, runHTTP minRep loc 0 0 term
        (g1 ++ Fetch.fail :: (g2 ++ Fetch.fail :: (g3 ++ Fetch.fail :: rest)))
        initState = Outcome.exit5 sf ∧ sf.streamErrors = 3 := by
  obtain ⟨sa, hea, herra, hstopa⟩ := runHTTP_good_block minRep loc term g1
    (Fetch.fail :: (g2 ++ Fetch.fail :: (g3 ++ Fetch.fail :: rest))) initState h1 rfl
  rw [hea, runHTTP_fail_step, if_neg (by rw [herra]; decide)]
  obtain ⟨hsea, -, -, -, -, hstpa⟩ := keyStep_fields sa
  obtain ⟨sb, heb, herrb, hstopb⟩ := runHTTP_good_block minRep loc term g2
    (Fetch.fail :: (g3 ++ Fetch.fail :: rest))
    { keyStep sa with streamErrors := sa.streamErrors + 1 } h2 (by simp [hstpa, hstopa])
  rw [heb, runHTTP_fail_step, if_neg (by rw [herrb]; simp [herra]; decide)]
  obtain ⟨hseb, -, -, -, -, hstpb⟩ := keyStep_fields sb
  obtain ⟨sc, hec, herrc, hstopc⟩ := runHTTP_good_block minRep loc term g3
    (Fetch.fail :: rest)
    { keyStep sb with streamErrors := sb.streamErrors + 1 } h3 (by simp [hstpb, hstopb])
  rw [hec, runHTTP_fail_step, if_pos (by rw [herrc]; simp [herrb, herra]; decide)]
  refine ⟨_, rfl, ?_⟩
  simp [herrc, herrb, herra]
  rfl

/-- C10 witness: a run with fetch results fail, good page, fail, good page,
fail — the three failures hitting different page numbers with successful
fetches in between — terminates with exit code 5 and error counter 3. -/
theorem driver_error_counter_global_witness :
    ∃ sf, runHTTP 500 (fun _ => true) 0 0 false
        ([] ++ Fetch.fail :: ([Fetch.page [u900] true] ++ Fetch.fail ::
          ([Fetch.page [u700] true] ++ Fetch.fail :: [])))
        initState = Outcome.exit5 sf ∧ sf.streamErrors = 3 :=
  driver_error_counter_global 500 (fun _ => true) false
    [] [Fetch.page [u900] true] [Fetch.page [u700] true] []
    (by intro ev hev; simp at hev)
    (by
      intro ev hev
      simp at hev
      subst hev
      refine ⟨by simp, rfl, ?_⟩
      intro u hu
      simp at hu
      subst hu
      decide)
    (by
      intro ev hev
      simp at hev
      subst hev
      refine ⟨by simp, rfl, ?_⟩
      intro u hu
      simp at hu
      subst hu
      decide)

/-- The number of qualifying records on a page: records before the first
under-threshold record (the filter's scan range) whose location matches. -/
def pageQual (minRep : Int) (loc : String → Bool) (items : List User) : Nat :=
  ((items.takeWhile fun u => decide (minRep ≤ u.reputation)).filter
    fun u => loc u.location).length

/-- Whether every record of a page is at or above the threshold (no early
exit happens on the page). -/
def pageAllAbove (minRep : Int) (items : List User) : Bool :=
  items.all fun u => decide (minRep ≤ u.reputation)

/-- The successive `GetUserInfo` calls the driver makes over the pages it
processes (src/main.go lines 332-335): each page is handed to the filter
with the shared counter and result list, and processing stops as soon as
the filter signals stop.  The pages the driver actually fetches form some
list; this function folds the filter over it. -/
def processPages (minRep : Int) (loc : String → Bool) (limitv : Int) (term : Bool) :
    List (List User) → Int → List SOUserRank → Int × List SOUserRank
  | [], c, r => (c, r)
  | p :: rest, c, r =>
    let res := GetUserInfo minRep loc limitv term p c r []
    if res.cont = true then processPages minRep loc limitv term rest res.counter res.ranks
    else (res.counter, res.ranks)

/-- Qualifying records across a whole run: records of the concatenated page
stream that lie before the first under-threshold record and whose location
matches the pattern. -/
def qualifyingCount (minRep : Int) (loc : String → Bool)
    (pages : List (List User)) : Nat :=
  pageQual minRep loc pages.flatten

theorem takeWhile_eq_self_of_all {α : Type} (p : α → Bool) :
    ∀ l : List α, (∀ a ∈ l, p a = true) → l.takeWhile p = l := by
  intro l
  induction l with
  | nil => intro _; rfl
  | cons a l ih =>
    intro h
    rw [List.takeWhile_cons, if_pos (h a (by simp))]
    rw [ih fun b hb => h b (by simp [hb])]

theorem takeWhile_append_of_all {α : Type} (p : α → Bool) :
    ∀ (l1 l2 : List α), (∀ a ∈ l1, p a = true) →
      (l1 ++ l2).takeWhile p = l1 ++ l2.takeWhile p := by
  intro l1
  induction l1 with
  | nil => intro l2 _; rfl
  | cons a l1 ih =>
    intro l2 h
    rw [List.cons_append, List.takeWhile_cons, if_pos (h a (by simp)), List.cons_append,
      ih l2 fun b hb => h b (by simp [hb])]

theorem takeWhile_append_of_exists {α : Type} (p : α → Bool) :
    ∀ (l1 l2 : List α), (∃ a ∈ l1, p a = false) →
      (l1 ++ l2).takeWhile p = l1.takeWhile p := by
  intro l1
  induction l1 with
  | nil => intro l2 h; simp at h
  | cons a l1 ih =>
    intro l2 h
    by_cases hpa : p a = true
    · rw [List.cons_append, List.takeWhile_cons, if_pos hpa, List.takeWhile_cons,
        if_pos hpa]
      obtain ⟨b, hb, hpb⟩ := h
      rcases List.mem_cons.mp hb with hba | hbl
      · subst hba; rw [hpa] at hpb; cases hpb
      · rw [ih l2 ⟨b, hbl, hpb⟩]
    · rw [List.cons_append, List.takeWhile_cons,
        if_neg hpa, List.takeWhile_cons, if_neg hpa]

theorem pageQual_nil (minRep : Int) (loc : String → Bool) :
    pageQual minRep loc [] = 0 := rfl

theorem pageQual_cons_below (minRep : Int) (loc : String → Bool) (u : User)
    (items : List User) (h : u.reputation < minRep) :
    pageQual minRep loc (u :: items) = 0 := by
  unfold pageQual
  rw [List.takeWhile_cons, if_neg (by simp [not_le.mpr h])]
  rfl

theorem pageQual_cons_match (minRep : Int) (loc : String → Bool) (u : User)
    (items : List User) (h : minRep ≤ u.reputation) (hl : loc u.location = true) :
    pageQual minRep loc (u :: items) = pageQual minRep loc items + 1 := by
  unfold pageQual
  rw [List.takeWhile_cons, if_pos (by simp [h])]
  simp [List.filter_cons, hl]

theorem pageQual_cons_nomatch (minRep : Int) (loc : String → Bool) (u : User)
    (items : List User) (h : minRep ≤ u.reputation) (hl : ¬loc u.location = true) :
    pageQual minRep loc (u :: items) = pageQual minRep loc items := by
  unfold pageQual
  rw [List.takeWhile_cons, if_pos (by simp [h])]
  simp [List.filter_cons, hl]

theorem pageAllAbove_iff (minRep : Int) (items : List User) :
    pageAllAbove minRep items = true ↔ ∀ u ∈ items, minRep ≤ u.reputation := by
  simp [pageAllAbove, List.all_eq_true]

/-- Counter arithmetic of one `GetUserInfo` call under a positive limit
`N`: starting from a counter `c < N`, the final counter is the smaller of
`N` and `c` plus the page's qualifying count, and the call signals continue
exactly when the limit was not reached and no under-threshold record exists
on the page. -/
theorem getUserInfo_counter_min (minRep : Int) (loc : String → Bool) (N : Int)
    (term : Bool) (hN : 0 < N) :
    ∀ (items : List User) (c : Int) (r : List SOUserRank) (lg : List LogEvent),
      c < N →
      (GetUserInfo minRep loc N term items c r lg).counter =
          min N (c + (pageQual minRep loc items : Int)) ∧
        ((GetUserInfo minRep loc N term items c r lg).cont = true ↔
          ((GetUserInfo minRep loc N term items c r lg).counter < N ∧
            pageAllAbove minRep items = true)) := by
  intro items
  induction items with
  | nil =>
    intro c r lg hc
    constructor
    · simp [GetUserInfo, pageQual]
      omega
    · simp [GetUserInfo, pageAllAbove]
      exact hc
  | cons u rest ih =>
    intro c r lg hc
    by_cases hrep : u.reputation < minRep
    · have hq := pageQual_cons_below minRep loc u rest hrep
      have hall : pageAllAbove minRep (u :: rest) = false := by
        simp [pageAllAbove, not_le.mpr hrep]
      constructor
      · simp [GetUserInfo, hrep, hq]
        omega
      · simp [GetUserInfo, hrep, hall]
    · have hrep2 : minRep ≤ u.reputation := not_lt.mp hrep
      have hall : pageAllAbove minRep (u :: rest) = pageAllAbove minRep rest := by
        simp [pageAllAbove, hrep2]
      by_cases hloc : loc u.location = true
      · have hq := pageQual_cons_match minRep loc u rest hrep2 hloc
        by_cases hlim : N ≤ c + 1 ∧ N ≠ 0
        · have hceq : c + 1 = N := by omega
          constructor
          · simp only [GetUserInfo, if_neg hrep, hloc, if_true, if_pos hlim]
            rw [hq]
            push_cast
            omega
          · simp only [GetUserInfo, if_neg hrep, hloc, if_true, if_pos hlim]
            simp
            omega
        · have hc1 : c + 1 < N := by omega
          obtain ⟨ih1, ih2⟩ := ih (c + 1) (r ++ [mkEntry (c + 1) u])
            (logStep term (c + 1) u lg) hc1
          constructor
          · simp only [GetUserInfo, if_neg hrep, hloc, if_true, if_neg hlim]
            rw [ih1, hq]
            push_cast
            ring_nf
          · simp only [GetUserInfo, if_neg hrep, hloc, if_true, if_neg hlim]
            rw [ih2, hall]
      · have hq := pageQual_cons_nomatch minRep loc u rest hrep2 hloc
        obtain ⟨ih1, ih2⟩ := ih c r lg hc
        constructor
        · simp only [GetUserInfo, if_neg hrep, hloc, if_false, Bool.false_eq_true]
          rw [ih1, hq]
        · simp only [GetUserInfo, if_neg hrep, hloc, if_false, Bool.false_eq_true]
          rw [ih2, hall]

/-- With no under-threshold record on the first page, the run-level
qualifying count decomposes page by page. -/
theorem qualifyingCount_cons_allAbove (minRep : Int) (loc : String → Bool)
    (p : List User) (rest : List (List User))
    (h : pageAllAbove minRep p = true) :
    qualifyingCount minRep loc (p :: rest) =
      pageQual minRep loc p + qualifyingCount minRep loc rest := by
  have hall : ∀ u ∈ p, (fun u => decide (minRep ≤ u.reputation)) u = true := by
    intro u hu
    simpa using (pageAllAbove_iff minRep p).mp h u hu
  unfold qualifyingCount pageQual
  rw [List.flatten_cons, takeWhile_append_of_all _ p rest.flatten hall,
    List.filter_append, List.length_append, takeWhile_eq_self_of_all _ p hall]

/-- With an under-threshold record on the first page, the run-level
qualifying count is that of the first page alone. -/
theorem qualifyingCount_cons_below (minRep : Int) (loc : String → Bool)
    (p : List User) (rest : List (List User))
    (h : pageAllAbove minRep p = false) :
    qualifyingCount minRep loc (p :: rest) = pageQual minRep loc p := by
  have hex : ∃ u ∈ p, (fun u => decide (minRep ≤ u.reputation)) u = false := by
    rcases List.all_eq_false.mp h with ⟨u, hu, hfu⟩
    exact ⟨u, hu, by simpa using hfu⟩
  unfold qualifyingCount pageQual
  rw [List.flatten_cons, takeWhile_append_of_exists _ p rest.flatten hex]

theorem qualifyingCount_cons_le (minRep : Int) (loc : String → Bool)
    (p : List User) (rest : List (List User)) :
    pageQual minRep loc p ≤ qualifyingCount minRep loc (p :: rest) := by
  by_cases h : pageAllAbove minRep p = true
  · rw [qualifyingCount_cons_allAbove minRep loc p rest h]
    omega
  · rw [qualifyingCount_cons_below minRep loc p rest
      (Bool.not_eq_true _ ▸ h)]

/-- Counter arithmetic of a whole run under a positive limit `N`: starting
from a counter `c < N`, the final counter is the smaller of `N` and `c`
plus the run-level qualifying count. -/
theorem processPages_counter (minRep : Int) (loc : String → Bool) (N : Int)
    (term : Bool) (hN : 0 < N) :
    ∀ (pages : List (List User)) (c : Int) (r : List SOUserRank), c < N →
      (processPages minRep loc N term pages c r).1 =
        min N (c + (qualifyingCount minRep loc pages : Int)) := by
  intro pages
  induction pages with
  | nil =>
    intro c r hc
    simp [processPages, qualifyingCount, pageQual]
    omega
  | cons p rest ih =>
    intro c r hc
    obtain ⟨h1, h2⟩ := getUserInfo_counter_min minRep loc N term hN p c r [] hc
    by_cases hcont : (GetUserInfo minRep loc N term p c r []).cont = true
    · obtain ⟨hlt, hall⟩ := h2.mp hcont
      have hqp : (GetUserInfo minRep loc N term p c r []).counter =
          c + (pageQual minRep loc p : Int) := by
        rcases min_choice N (c + (pageQual minRep loc p : Int)) with hmin | hmin <;>
          omega
      have : processPages minRep loc N term (p :: rest) c r =
          processPages minRep loc N term rest
            (GetUserInfo minRep loc N term p c r []).counter
            (GetUserInfo minRep loc N term p c r []).ranks := by
        simp [processPages, hcont]
      rw [this, ih _ _ (by omega),
        qualifyingCount_cons_allAbove minRep loc p rest hall, hqp]
      push_cast
      ring_nf
    · have : processPages minRep loc N term (p :: rest) c r =
          ((GetUserInfo minRep loc N term p c r []).counter,
           (GetUserInfo minRep loc N term p c r []).ranks) := by
        simp [processPages, hcont]
      rw [this]
      simp only
      by_cases hall : pageAllAbove minRep p = true
      · have hge : N ≤ (GetUserInfo minRep loc N term p c r []).counter := by
          by_contra hlt
          exact hcont (h2.mpr ⟨by omega, hall⟩)
        have hq := qualifyingCount_cons_le minRep loc p rest
        rcases min_choice N (c + (pageQual minRep loc p : Int)) with hmin | hmin <;>
          omega
      · rw [qualifyingCount_cons_below minRep loc p rest (Bool.not_eq_true _ ▸ hall)]
        exact h1

theorem rank_seq_append (c : Int) (t1 t2 : List SOUserRank)
    (h1 : ∀ i (h : i < t1.length), (t1.get ⟨i, h⟩).rank = c + i + 1)
    (h2 : ∀ i (h : i < t2.length), (t2.get ⟨i, h⟩).rank = c + t1.length + i + 1) :
    ∀ i (h : i < (t1 ++ t2).length), ((t1 ++ t2).get ⟨i, h⟩).rank = c + i + 1 := by
  intro i h
  rcases lt_or_ge i t1.length with hil | hir
  · have he : (t1 ++ t2).get ⟨i, h⟩ = t1.get ⟨i, hil⟩ := by
      simp only [List.get_eq_getElem]
      exact List.getElem_append_left hil
    rw [he]
    exact h1 i hil
  · have hit : i - t1.length < t2.length := by
      simp only [List.length_append] at h
      omega
    have he : (t1 ++ t2).get ⟨i, h⟩ = t2.get ⟨i - t1.length, hit⟩ := by
      simp only [List.get_eq_getElem]
      exact List.getElem_append_right hir
    rw [he, h2 _ hit]
    omega

/-- Structural description of a whole run: the result list is extended by a
block of new entries, the counter advances by their number, and the new
entries carry consecutive ranks continuing from the starting counter. -/
theorem processPages_ranks_spec (minRep : Int) (loc : String → Bool) (limitv : Int)
    (term : Bool) :
    ∀ (pages : List (List User)) (c : Int) (r : List SOUserRank),
      ∃ t : List SOUserRank,
        (processPages minRep loc limitv term pages c r).2 = r ++ t ∧
        (processPages minRep loc limitv term pages c r).1 = c + t.length ∧
        ∀ i (h : i < t.length), (t.get ⟨i, h⟩).rank = c + i + 1 := by
  intro pages
  induction pages with
  | nil =>
    intro c r
    exact ⟨[], by simp [processPages]⟩
  | cons p rest ih =>
    intro c r
    obtain ⟨t1, e1, e2, e3⟩ := getUserInfo_ranks_spec minRep loc limitv term p c r []
    by_cases hcont : (GetUserInfo minRep loc limitv term p c r []).cont = true
    · have hstep : processPages minRep loc limitv term (p :: rest) c r =
          processPages minRep loc limitv term rest
            (GetUserInfo minRep loc limitv term p c r []).counter
            (GetUserInfo minRep loc limitv term p c r []).ranks := by
        simp [processPages, hcont]
      obtain ⟨t2, f1, f2, f3⟩ := ih (GetUserInfo minRep loc limitv term p c r []).counter
        (GetUserInfo minRep loc limitv term p c r []).ranks
      refine ⟨t1 ++ t2, ?_, ?_, ?_⟩
      · rw [hstep, f1, e1, List.append_assoc]
      · rw [hstep, f2, e2]
        simp only [List.length_append]
        push_cast
        ring
      · refine rank_seq_append c t1 t2 e3 ?_
        intro i h
        rw [f3 i h, e2]
    · have hstep : processPages minRep loc limitv term (p :: rest) c r =
          ((GetUserInfo minRep loc limitv term p c r []).counter,
           (GetUserInfo minRep loc limitv term p c r []).ranks) := by
        simp [processPages, hcont]
      exact ⟨t1, by rw [hstep]; exact e1, by rw [hstep]; exact e2, e3⟩

/-- C3: for every run with limit `N > 0` — counter starting at 0, result
list starting empty — the result list holds at most `N` entries; its final
entry carries rank `N` exactly when at least `N` qualifying records
(reputation at or above the minimum, location matching, before any
under-threshold record) existed across the processed pages; and within any
single filter call that pushes the counter from below `N` to `N`, the
filter returns `false` (do not continue). -/
theorem rankFilter_limit_behaviour (minRep : Int) (loc : String → Bool) (term : Bool)
    (N : Int) (pages : List (List User)) (hN : 0 < N) :
    ((processPages minRep loc N term pages 0 []).2.length : Int) ≤ N ∧
    ((processPages minRep loc N term pages 0 []).2.getLast?.map SOUserRank.rank =
        some N ↔ N ≤ (qualifyingCount minRep loc pages : Int)) ∧
    (∀ (page : List User) (c : Int) (r : List SOUserRank) (lg : List LogEvent),
      c < N → N ≤ (GetUserInfo minRep loc N term page c r lg).counter →
      (GetUserInfo minRep loc N term page c r lg).cont = false) := by
  obtain ⟨t, ht1, ht2, ht3⟩ := processPages_ranks_spec minRep loc N term pages 0 []
  have hcnt := processPages_counter minRep loc N term hN pages 0 [] hN
  have htr : (processPages minRep loc N term pages 0 []).2 = t := by
    simpa using ht1
  have hlen : (t.length : Int) = min N (qualifyingCount minRep loc pages : Int) := by
    have := ht2
    rw [hcnt] at this
    simp only [zero_add] at this
    omega
  have hminl : min N (qualifyingCount minRep loc pages : Int) ≤ N := min_le_left _ _
  have hminr : min N (qualifyingCount minRep loc pages : Int) ≤
      (qualifyingCount minRep loc pages : Int) := min_le_right _ _
  refine ⟨?_, ?_, ?_⟩
  · rw [htr, hlen]
    exact hminl
  · rw [htr]
    by_cases hte : t = []
    · subst hte
      simp only [List.length_nil, Nat.cast_zero] at hlen
      simp only [List.getLast?_nil, Option.map_none]
      constructor
      · intro hx
        exact absurd hx (by simp)
      · intro hx
        exfalso
        rcases min_choice N (qualifyingCount minRep loc pages : Int) with hmin | hmin <;>
          rw [hmin] at hlen <;> omega
    · have hpos : 0 < t.length := List.length_pos.mpr hte
      have hb : t.length - 1 < t.length := by omega
      have hlast : t.getLast? = some (t.get ⟨t.length - 1, hb⟩) := by
        rw [List.getLast?_eq_getElem?, List.getElem?_eq_getElem hb]
        rfl
      rw [hlast]
      have hrk := ht3 (t.length - 1) hb
      simp only [Option.map_some', Option.some.injEq]
      rw [hrk]
      rcases min_choice N (qualifyingCount minRep loc pages : Int) with hmin | hmin <;>
        rw [hmin] at hlen hminl hminr <;> omega
  · intro page c r lg hc hge
    obtain ⟨g1, g2⟩ := getUserInfo_counter_min minRep loc N term hN page c r lg hc
    by_cases hcont : (GetUserInfo minRep loc N term page c r lg).cont = true
    · obtain ⟨hlt, -⟩ := g2.mp hcont
      omega
    · exact (Bool.not_eq_true _) ▸ hcont

/-- C3 witness: limit 2, a single page with reputations 900, 700, 300 at
minimum 500 — the run accepts 2 entries, the final rank is 2, and exactly 2
qualifying records exist. -/
theorem rankFilter_limit_behaviour_witness :
    ((processPages 500 (fun _ => true) 2 false [[u900, u700, u300]] 0 []).2.length :
        Int) ≤ 2 ∧
    ((processPages 500 (fun _ => true) 2 false
        [[u900, u700, u300]] 0 []).2.getLast?.map SOUserRank.rank = some 2 ↔
      2 ≤ (qualifyingCount 500 (fun _ => true) [[u900, u700, u300]] : Int)) ∧
    (∀ (page : List User) (c : Int) (r : List SOUserRank) (lg : List LogEvent),
      c < 2 → 2 ≤ (GetUserInfo 500 (fun _ => true) 2 false page c r lg).counter →
      (GetUserInfo 500 (fun _ => true) 2 false page c r lg).cont = false) :=
  rankFilter_limit_behaviour 500 (fun _ => true) false 2 [[u900, u700, u300]]
    (by norm_num)
